import Mathlib

/-!
Verification development for the PyROS separation-problem engine
(`pyomo/contrib/pyros/separation_problem_methods.py`).

Each Python function relevant to the checked properties is shallowly
embedded as an executable Lean definition; machine floats are rendered
as rationals, fallible code returns `Except`, and Pyomo components are
rendered as plain data.
-/

namespace PyrosSep

/-- A minimal symbolic-expression type standing in for Pyomo expressions:
constants, variables (by id) and subtraction (the only operation the
objective synthesizer builds). -/
inductive SepExpr where
  | const (q : ℚ)
  | evar (n : ℕ)
  | sub (a b : SepExpr)
deriving DecidableEq, Repr

/-- Objective sense, as in `pyomo.core.base.objective`. -/
inductive Sense where
  | minimize
  | maximize
deriving DecidableEq, Repr

/-- A synthesized separation objective: expression plus sense
(mirrors `Objective(expr=..., sense=...)`). -/
structure SepObjectiveDecl where
  expr : SepExpr
  sense : Sense
deriving DecidableEq, Repr

/-- An inequality/equality constraint as the synthesis loop sees it:
a body expression and optional lower/upper bound expressions
(`c.body`, `c.lower`, `c.upper`). -/
structure ConstraintData where
  body : SepExpr
  lower : Option SepExpr
  upper : Option SepExpr
deriving DecidableEq, Repr

/-- Embedding of the objective-synthesis loop of
`make_separation_objective_functions` (lines 95-113 of the source):
for each performance constraint in order, an upper-bounded constraint
yields a maximize objective `c.body - c.upper`; a constraint with only
a lower bound raises `ValueError`; a constraint with neither bound is
skipped. -/
def make_separation_objective_functions :
    List ConstraintData → Except String (List SepObjectiveDecl)
  | [] => .ok []
  | c :: rest =>
    match c.upper with
    | some u =>
        (make_separation_objective_functions rest).map
          (fun objs => ⟨SepExpr.sub c.body u, Sense.maximize⟩ :: objs)
    | none =>
        match c.lower with
        | some _ =>
            .error "All inequality constraints in model must be in standard form (<= RHS)"
        | none => make_separation_objective_functions rest

/-- The objective synthesized for one upper-bounded constraint. -/
def objectiveOfConstraint (c : ConstraintData) : Option SepObjectiveDecl :=
  c.upper.map (fun u => ⟨SepExpr.sub c.body u, Sense.maximize⟩)

/-- C1. For every performance constraint carrying an upper bound `u` and
body `b`, the synthesis loop produces exactly one maximize-sense objective
with expression `b - u` (one objective per such constraint, in order), and
as soon as some constraint has only a lower bound the loop fails with the
standard-form configuration error instead of producing objectives. -/
theorem make_separation_objective_functions_spec
    (cs : List ConstraintData) :
    make_separation_objective_functions cs =
      (if cs.any (fun c => c.upper.isNone && c.lower.isSome) then
        Except.error "All inequality constraints in model must be in standard form (<= RHS)"
      else
        Except.ok (cs.filterMap objectiveOfConstraint)) := by
  induction cs with
  | nil => simp [make_separation_objective_functions]
  | cons c rest ih =>
    cases hu : c.upper with
    | some u =>
      by_cases h : rest.any (fun c => c.upper.isNone && c.lower.isSome) <;>
        · simp only [make_separation_objective_functions, hu, ih, h, List.any_cons,
            Option.isNone_some, Bool.false_and, Bool.false_or, if_true, if_false,
            Except.map, List.filterMap_cons, objectiveOfConstraint, Option.map_some']
          try simp
    | none =>
      cases hl : c.lower with
      | some lo =>
        simp [make_separation_objective_functions, hu, hl]
      | none =>
        by_cases h : rest.any (fun c => c.upper.isNone && c.lower.isSome) <;>
          simp only [make_separation_objective_functions, hu, hl, ih, h, List.any_cons,
            Option.isNone_none, Option.isSome_none, Bool.true_and, Bool.and_false,
            Bool.false_or, if_true, if_false,
            List.filterMap_cons, objectiveOfConstraint, Option.map_none']

/-! ### Separation-model state, objective evaluation, violation bookkeeping -/

/-- Exceptions raised by the violation-evaluation routines:
`stopIteration` from `next(...)` when no objective is active, and
`ArithmeticError` carrying the variable values that were logged just
before raising. -/
inductive PyrosError where
  | stopIteration
  | arithmeticError (logged : List (String × ℚ))
deriving DecidableEq, Repr

/-- One separation objective as seen at evaluation time: its activation
flag and the value of its expression at the current variable values
(`none` models a math-domain error such as `log` of a nonpositive
number). -/
structure SepObjective where
  active : Bool
  val : Option ℚ
deriving DecidableEq, Repr

/-- The separation model state consumed by the violation-evaluation
routines: the ordered separation objectives and the current values of the
model variable groups (`model.util.*`). -/
structure SeparationModelState where
  separation_objectives : List SepObjective
  first_stage_variables : List (String × ℚ)
  second_stage_variables : List (String × ℚ)
  state_vars : List (String × ℚ)
  uncertain_param_vars : List ℚ
deriving DecidableEq, Repr

/-- Inner loop of `get_all_sep_objective_values` over the objective list:
each objective value is appended; the first evaluation failure logs the
first-stage and second-stage variable values and raises
`ArithmeticError`. -/
def collectObjectiveValues (logged : List (String × ℚ)) :
    List SepObjective → Except PyrosError (List ℚ)
  | [] => .ok []
  | o :: rest =>
    match o.val with
    | some v => (collectObjectiveValues logged rest).map (v :: ·)
    | none => .error (.arithmeticError logged)

/-- Embedding of `get_all_sep_objective_values` (lines 201-219): evaluate
every separation objective in order; on a math-domain error, log the
values of the first-stage and second-stage variables and raise an
`ArithmeticError` instead of returning. -/
def get_all_sep_objective_values (m : SeparationModelState) :
    Except PyrosError (List ℚ) :=
  collectObjectiveValues
    (m.first_stage_variables ++ m.second_stage_variables)
    m.separation_objectives

/-- Embedding of `update_solve_data_violations` (lines 494-534): fetch the
active objective (`next(...)`, `StopIteration` if none), record the
uncertain-parameter realization, evaluate all objectives, scale each by
`max(1, |nominal value|)`, and return whether the active objective's
scaled value strictly exceeds the robust feasibility tolerance.
The returned triple is (`violating_param_realization`,
`list_of_scaled_violations`, `found_violation`). -/
def update_solve_data_violations (m : SeparationModelState)
    (nom_value tol : ℚ) : Except PyrosError (List ℚ × List ℚ × Bool) :=
  let denom : ℚ := max 1 |nom_value|
  match m.separation_objectives.find? (·.active) with
  | none => .error .stopIteration
  | some activeObj =>
    match get_all_sep_objective_values m with
    | .error e => .error e
    | .ok list_of_violations =>
      .ok (m.uncertain_param_vars,
           list_of_violations.map (· / denom),
           decide (activeObj.val.getD 0 / denom > tol))

/-- When every objective evaluates, collection succeeds with the raw
values in order. -/
theorem collectObjectiveValues_ok (logged : List (String × ℚ))
    (objs : List SepObjective) (h : ∀ o ∈ objs, o.val.isSome) :
    collectObjectiveValues logged objs = .ok (objs.map (fun o => o.val.getD 0)) := by
  induction objs with
  | nil => rfl
  | cons o rest ih =>
    have ho := h o (List.mem_cons_self o rest)
    obtain ⟨v, hv⟩ := Option.isSome_iff_exists.mp ho
    have hrest : ∀ o ∈ rest, o.val.isSome := fun o hm => h o (List.mem_cons_of_mem _ hm)
    simp [collectObjectiveValues, hv, ih hrest, Except.map]

/-- If some objective fails to evaluate, collection raises an
`ArithmeticError` carrying exactly the given log. -/
theorem collectObjectiveValues_error (logged : List (String × ℚ))
    (objs : List SepObjective) (h : ∃ o ∈ objs, o.val = none) :
    collectObjectiveValues logged objs = .error (.arithmeticError logged) := by
  induction objs with
  | nil => simp at h
  | cons o rest ih =>
    obtain ⟨o', ho', hval⟩ := h
    rcases List.mem_cons.mp ho' with rfl | hmem
    · simp [collectObjectiveValues, hval]
    · cases hv : o.val with
      | none => simp [collectObjectiveValues, hv]
      | some v => simp [collectObjectiveValues, hv, ih ⟨o', hmem, hval⟩, Except.map]

/-- C7 counterexample. A concrete separation model whose state-variable
values are not part of what the engine logs before raising: evaluation of
the single (failing) objective raises the arithmetic error having logged
only the first-stage and second-stage variable values, and the state
variable value pair is absent from the log, so not all current variable
values of the separation model are logged. -/
theorem get_all_sep_objective_values_skips_state_vars :
    get_all_sep_objective_values
        { separation_objectives := [⟨false, none⟩],
          first_stage_variables := [("x1", (1 : ℚ))],
          second_stage_variables := [("z1", (2 : ℚ))],
          state_vars := [("s1", (3 : ℚ))],
          uncertain_param_vars := [0] } =
      .error (.arithmeticError [("x1", (1 : ℚ)), ("z1", (2 : ℚ))]) ∧
    ("s1", (3 : ℚ)) ∉ [("x1", (1 : ℚ)), ("z1", (2 : ℚ))] := by
  constructor
  · rfl
  · decide

/-- C7 (amended). If evaluating some separation objective hits a
math-domain error, the engine fails with an `ArithmeticError` (rather
than returning the value list), having logged exactly the current values
of the first-stage and second-stage variables. -/
theorem get_all_sep_objective_values_arith_error (m : SeparationModelState)
    (h : ∃ o ∈ m.separation_objectives, o.val = none) :
    get_all_sep_objective_values m =
      .error (.arithmeticError
        (m.first_stage_variables ++ m.second_stage_variables)) :=
  collectObjectiveValues_error _ _ h

/-- C7 amended-theorem witness at a concrete failing model. -/
theorem get_all_sep_objective_values_arith_error_witness :
    get_all_sep_objective_values
        { separation_objectives := [⟨true, some 5⟩, ⟨false, none⟩],
          first_stage_variables := [("x1", (1 : ℚ))],
          second_stage_variables := [],
          state_vars := [],
          uncertain_param_vars := [0] } =
      .error (.arithmeticError [("x1", (1 : ℚ))]) :=
  get_all_sep_objective_values_arith_error _
    ⟨⟨false, none⟩, by decide, rfl⟩

/-- The element a successful `find?` returns sits at position `findIdx`. -/
theorem getD_findIdx_of_find?_eq {α : Type _} (l : List α) (p : α → Bool)
    (o d : α) (h : l.find? p = some o) : l.getD (l.findIdx p) d = o := by
  induction l with
  | nil => simp at h
  | cons a rest ih =>
    by_cases hp : p a
    · simp [List.find?_cons, hp] at h
      subst h
      simp [List.findIdx_cons, hp]
    · simp [List.find?_cons, hp] at h
      simp only [List.findIdx_cons, hp, cond_false]
      simpa using ih h

/-- C2. For a separation solve whose model has an active objective and
whose objectives all evaluate, `update_solve_data_violations` records,
for each performance constraint, the scaled violation equal to its raw
objective value divided by `max(1, |nominal constraint value|)`, and
returns `found_violation = true` exactly when the recorded scaled value
of the currently active objective (the one at index
`findIdx (·.active)`) strictly exceeds the robust feasibility
tolerance. -/
theorem update_solve_data_violations_spec (m : SeparationModelState)
    (nom_value tol : ℚ) (o : SepObjective)
    (hfind : m.separation_objectives.find? (·.active) = some o)
    (hall : ∀ ob ∈ m.separation_objectives, ob.val.isSome) :
    ∃ scaled found,
      update_solve_data_violations m nom_value tol =
        .ok (m.uncertain_param_vars, scaled, found) ∧
      scaled = m.separation_objectives.map
        (fun ob => ob.val.getD 0 / max 1 |nom_value|) ∧
      (found = true ↔
        scaled.getD (m.separation_objectives.findIdx (·.active)) 0 > tol) := by
  have hvals : get_all_sep_objective_values m =
      .ok (m.separation_objectives.map (fun ob => ob.val.getD 0)) :=
    collectObjectiveValues_ok _ _ hall
  have hlt : m.separation_objectives.findIdx (·.active) <
      m.separation_objectives.length :=
    List.findIdx_lt_length.mpr ⟨o, List.mem_of_find?_eq_some hfind,
      List.find?_some hfind⟩
  have hgetf : m.separation_objectives.getD
      (m.separation_objectives.findIdx (·.active)) ⟨false, none⟩ = o :=
    getD_findIdx_of_find?_eq _ _ _ _ hfind
  have hidx : (m.separation_objectives.map
        (fun ob => ob.val.getD 0 / max 1 |nom_value|)).getD
        (m.separation_objectives.findIdx (·.active)) 0 =
      o.val.getD 0 / max 1 |nom_value| := by
    rw [List.getD_eq_getElem?_getD, List.getElem?_map,
      List.getElem?_eq_getElem hlt]
    rw [List.getD_eq_getElem?_getD, List.getElem?_eq_getElem hlt] at hgetf
    simp only [Option.getD_some] at hgetf ⊢
    rw [hgetf]
    rfl
  refine ⟨m.separation_objectives.map
      (fun ob => ob.val.getD 0 / max 1 |nom_value|),
    decide (o.val.getD 0 / max 1 |nom_value| > tol), ?_, rfl, ?_⟩
  · simp only [update_solve_data_violations, hfind, hvals, List.map_map]
    rfl
  · rw [hidx]
    exact decide_eq_true_iff

/-- C2 witness. Nominal value 50, tolerance 1/100, active objective raw
value 5/2: scaled value 1/20 strictly exceeds the tolerance, so
`found_violation` is true, and both scaled violations are the raw values
divided by 50. -/
theorem update_solve_data_violations_spec_witness :
    ∃ scaled found,
      update_solve_data_violations
          { separation_objectives := [⟨false, some 1⟩, ⟨true, some (5/2)⟩],
            first_stage_variables := [],
            second_stage_variables := [],
            state_vars := [],
            uncertain_param_vars := [3, 4] } 50 (1/100) =
        .ok ([3, 4], scaled, found) ∧
      scaled = [⟨false, some 1⟩, ⟨true, some (5/2)⟩].map
        (fun (ob : SepObjective) => ob.val.getD 0 / max 1 |(50 : ℚ)|) ∧
      (found = true ↔
        scaled.getD ([⟨false, some 1⟩, ⟨true, some (5/2)⟩].findIdx
          (SepObjective.active ·)) 0 > (1/100 : ℚ)) :=
  update_solve_data_violations_spec _ 50 (1/100) ⟨true, some (5/2)⟩
    rfl (by intro ob hob; rcases hob with _ | ⟨_, _ | ⟨_, ⟨⟩⟩⟩ <;> rfl)

/-! ### Fixing effectively certain uncertain parameters (C10) -/

/-- Modelled from the spec: `is_certain_parameter` lives in
`pyomo/contrib/pyros/util.py`, which is not among the sources here; the
builder's comment specifies the test as
`(q_ub - q_lb)/max(1, |q_UB|) <= TOL` on the parameter's effective
uncertainty-set bounds. -/
def is_certain_parameter (q_lb q_ub tol : ℚ) : Bool :=
  decide ((q_ub - q_lb) / max 1 |q_ub| ≤ tol)

/-- Embedding of the certain-parameter pre-processing loop of
`add_uncertainty_set_constraints` (lines 44-55): each surrogate
uncertain-parameter variable whose bounds make it effectively certain is
fixed to the configured nominal value; the other surrogate variables are
left untouched. A variable is `some q` when fixed to `q` and `none` when
free. -/
def add_uncertainty_set_constraints (bounds : List (ℚ × ℚ))
    (nominal_uncertain_param_vals : List ℚ) (tol : ℚ)
    (uncertain_param_vars : List (Option ℚ)) : List (Option ℚ) :=
  uncertain_param_vars.mapIdx (fun i v =>
    if is_certain_parameter (bounds.getD i (0, 0)).1 (bounds.getD i (0, 0)).2 tol
    then some (nominal_uncertain_param_vals.getD i 0)
    else v)

/-- C10. Building the separation model fixes the surrogate variable of
every effectively certain uncertain parameter (bounds coincide within
tolerance) to its configured nominal value, and leaves the surrogate
variable of every other uncertain parameter exactly as it was (free). -/
theorem add_uncertainty_set_constraints_spec (bounds : List (ℚ × ℚ))
    (nominal_uncertain_param_vals : List ℚ) (tol : ℚ)
    (uncertain_param_vars : List (Option ℚ)) (i : ℕ)
    (h : i < uncertain_param_vars.length) :
    (is_certain_parameter (bounds.getD i (0, 0)).1 (bounds.getD i (0, 0)).2
        tol = true →
      (add_uncertainty_set_constraints bounds nominal_uncertain_param_vals
        tol uncertain_param_vars).getD i none =
        some (nominal_uncertain_param_vals.getD i 0)) ∧
    (is_certain_parameter (bounds.getD i (0, 0)).1 (bounds.getD i (0, 0)).2
        tol = false →
      (add_uncertainty_set_constraints bounds nominal_uncertain_param_vals
        tol uncertain_param_vars).getD i none =
        uncertain_param_vars.getD i none) := by
  have hlen : i < (add_uncertainty_set_constraints bounds
      nominal_uncertain_param_vals tol uncertain_param_vars).length := by
    simpa [add_uncertainty_set_constraints] using h
  have key : (add_uncertainty_set_constraints bounds
      nominal_uncertain_param_vals tol uncertain_param_vars).getD i none =
      (if is_certain_parameter (bounds.getD i (0, 0)).1
          (bounds.getD i (0, 0)).2 tol
       then some (nominal_uncertain_param_vals.getD i 0)
       else uncertain_param_vars.getD i none) := by
    rw [List.getD_eq_getElem?_getD, List.getElem?_eq_getElem hlen,
      List.getD_eq_getElem?_getD uncertain_param_vars,
      List.getElem?_eq_getElem h]
    simp only [add_uncertainty_set_constraints, List.getElem_mapIdx,
      Option.getD_some]
  constructor <;> intro hc <;> rw [key] <;> simp only [hc] <;> simp

/-- C10 witness. Two uncertain parameters: the first has coinciding
bounds (certain) and its surrogate gets fixed to the nominal value 7; the
second has a wide box and stays free. -/
theorem add_uncertainty_set_constraints_spec_witness :
    (is_certain_parameter ([((7 : ℚ), (7 : ℚ)), (0, 10)].getD 0 (0, 0)).1
        ([((7 : ℚ), (7 : ℚ)), (0, 10)].getD 0 (0, 0)).2 0 = true →
      (add_uncertainty_set_constraints [((7 : ℚ), (7 : ℚ)), (0, 10)] [7, 5] 0
        [none, none]).getD 0 none = some ([(7 : ℚ), 5].getD 0 0)) ∧
    (is_certain_parameter ([((7 : ℚ), (7 : ℚ)), (0, 10)].getD 0 (0, 0)).1
        ([((7 : ℚ), (7 : ℚ)), (0, 10)].getD 0 (0, 0)).2 0 = false →
      (add_uncertainty_set_constraints [((7 : ℚ), (7 : ℚ)), (0, 10)] [7, 5] 0
        [none, none]).getD 0 none = [none, none].getD 0 none) :=
  add_uncertainty_set_constraints_spec [((7 : ℚ), (7 : ℚ)), (0, 10)]
    [7, 5] 0 [none, none] 0 (by decide)

/-! ### Backup-solver snapshots and time-limit reverts (C8) -/

/-- Mutable options carried by a subordinate solver descriptor; the only
field the separation engine touches is the maximum-time setting. -/
structure SolverSettings where
  maxTime : Option ℚ
deriving DecidableEq, Repr

/-- Modelled from the spec: `adjust_solver_time_settings` (in
`pyomo/contrib/pyros/util.py`, not among the sources here) applies a
time-limit adjustment to the solver's options in place and returns the
original setting together with whether a custom setting was present. -/
def adjust_solver_time_settings (opt : SolverSettings) (newLimit : ℚ) :
    SolverSettings × Option ℚ × Bool :=
  (⟨some newLimit⟩, opt.maxTime, opt.maxTime.isSome)

/-- Modelled from the spec: `revert_solver_max_time_adjustment` (in
`pyomo/contrib/pyros/util.py`, not among the sources here) restores the
original time-limit setting recorded by the matching adjust call. -/
def revert_solver_max_time_adjustment (orig_setting : Option ℚ)
    (_custom_setting_present : Bool) : SolverSettings :=
  ⟨orig_setting⟩

/-- A heap of solver descriptors addressed by object identity, so that
Python aliasing (the primary solver is inserted by reference, the backup
list is deep-copied) is represented faithfully. -/
def SolverStore : Type := ℕ → SolverSettings

/-- Outcome classification of one subordinate solve attempt: the PyROS
time budget was found exceeded right after it, the termination status
was acceptable, or it was unacceptable (try the next backup). -/
inductive AttemptClass where
  | timeLimit
  | acceptableStatus
  | unacceptableStatus
deriving DecidableEq, Repr

/-- The `deepcopy` of the configured backup-solver list: fresh heap
locations `base, base+1, ...` receive copies of the configured
descriptors, leaving the originals in place. -/
def copy_backup_solvers : SolverStore → List ℕ → ℕ → SolverStore
  | store, [], _ => store
  | store, sid :: rest, b =>
      copy_backup_solvers (Function.update store b (store sid)) rest (b + 1)

/-- Embedding of the backup-solver loop of `solver_call_separation`
(lines 676-726): for each solver in order, adjust its time settings,
solve, and in the `finally` block revert the adjustment; stop early on a
time-limit hit (returning `true`) or an acceptable status (returning
`false`); exhausting the list returns `true`. -/
def solver_iteration_loop (timeAdj : ℚ) (outcome : ℕ → AttemptClass) :
    SolverStore → List ℕ → SolverStore × Bool
  | store, [] => (store, true)
  | store, sid :: rest =>
    let adj := adjust_solver_time_settings (store sid) timeAdj
    let store1 := Function.update store sid adj.1
    let store2 := Function.update store1 sid
      (revert_solver_max_time_adjustment adj.2.1 adj.2.2)
    match outcome sid with
    | .timeLimit => (store2, true)
    | .acceptableStatus => (store2, false)
    | .unacceptableStatus => solver_iteration_loop timeAdj outcome store2 rest

/-- Embedding of the solver-list setup of `solver_call_separation`
(lines 664-668): deep-copy the configured backup solvers to fresh heap
locations, prepend the primary solver (by reference), then run the
solver loop. -/
def solver_call_separation_solvers (store : SolverStore) (primaryId : ℕ)
    (cfgBackupIds : List ℕ) (base : ℕ) (timeAdj : ℚ)
    (outcome : ℕ → AttemptClass) : SolverStore × Bool :=
  let store1 := copy_backup_solvers store cfgBackupIds base
  let freshIds := (List.range cfgBackupIds.length).map (base + ·)
  solver_iteration_loop timeAdj outcome store1 (primaryId :: freshIds)

/-- Reverting immediately after adjusting restores the descriptor
exactly, so one loop iteration leaves the heap unchanged. -/
theorem solver_iteration_loop_store_eq (timeAdj : ℚ)
    (outcome : ℕ → AttemptClass) (store : SolverStore) (ids : List ℕ) :
    (solver_iteration_loop timeAdj outcome store ids).1 = store := by
  induction ids generalizing store with
  | nil => rfl
  | cons sid rest ih =>
    have hrestore : Function.update
        (Function.update store sid
          (adjust_solver_time_settings (store sid) timeAdj).1) sid
        (revert_solver_max_time_adjustment
          (adjust_solver_time_settings (store sid) timeAdj).2.1
          (adjust_solver_time_settings (store sid) timeAdj).2.2) = store := by
      rw [Function.update_idem]
      have : revert_solver_max_time_adjustment
          (adjust_solver_time_settings (store sid) timeAdj).2.1
          (adjust_solver_time_settings (store sid) timeAdj).2.2 = store sid := by
        simp [adjust_solver_time_settings, revert_solver_max_time_adjustment]
      rw [this, Function.update_eq_self]
    cases h : outcome sid <;>
      simp only [solver_iteration_loop, h, hrestore, ih]

/-- The deep copy writes only at the fresh locations `base, base+1, ...`,
so every heap location below `base` is untouched. -/
theorem copy_backup_solvers_below (store : SolverStore) (cfgIds : List ℕ)
    (b j : ℕ) (hj : j < b) :
    copy_backup_solvers store cfgIds b j = store j := by
  induction cfgIds generalizing store b with
  | nil => rfl
  | cons sid rest ih =>
    have hj' : j < b + 1 := Nat.lt_succ_of_lt hj
    rw [copy_backup_solvers, ih _ _ hj',
      Function.update_noteq (Nat.ne_of_lt hj)]

/-- The deep copy places, at each fresh location, exactly the configured
descriptor value it copies. -/
theorem copy_backup_solvers_fresh (store : SolverStore) (cfgIds : List ℕ)
    (b k : ℕ) (hk : k < cfgIds.length) (hb : ∀ sid ∈ cfgIds, sid < b) :
    copy_backup_solvers store cfgIds b (b + k) = store (cfgIds.getD k 0) := by
  induction cfgIds generalizing store b k with
  | nil => simp at hk
  | cons sid rest ih =>
    cases k with
    | zero =>
      rw [copy_backup_solvers]
      simp only [Nat.add_zero, List.getD_cons_zero]
      rw [copy_backup_solvers_below _ _ _ _ (by omega : b < b + 1)]
      simp [Function.update_same]
    | succ k =>
      have hk' : k < rest.length := Nat.lt_of_succ_lt_succ hk
      have hb' : ∀ s ∈ rest, s < b + 1 := fun s hs =>
        Nat.lt_succ_of_lt (hb s (List.mem_cons_of_mem _ hs))
      have hmem : rest.getD k 0 ∈ rest := by
        rw [List.getD_eq_getElem?_getD, List.getElem?_eq_getElem hk']
        exact List.getElem_mem _
      have hne : rest.getD k 0 ≠ b :=
        Nat.ne_of_lt (hb _ (List.mem_cons_of_mem _ hmem))
      have harr : b + (k + 1) = (b + 1) + k := by omega
      rw [copy_backup_solvers, harr, ih _ _ _ hk' hb',
        Function.update_noteq hne]
      rfl

/-- C8. A separation solver call leaves every configured solver
descriptor unchanged: the configured backup descriptors are never
touched (only their deep copies at the fresh locations are), the primary
solver's in-place time-limit adjustments are all reverted, and the fresh
locations received exact copies of the configured descriptors. -/
theorem solver_call_separation_config_frame (store : SolverStore)
    (primaryId : ℕ) (cfgBackupIds : List ℕ) (base : ℕ) (timeAdj : ℚ)
    (outcome : ℕ → AttemptClass)
    (hb : ∀ sid ∈ cfgBackupIds, sid < base) (hp : primaryId < base) :
    (∀ sid ∈ cfgBackupIds,
      (solver_call_separation_solvers store primaryId cfgBackupIds base
        timeAdj outcome).1 sid = store sid) ∧
    (solver_call_separation_solvers store primaryId cfgBackupIds base
        timeAdj outcome).1 primaryId = store primaryId ∧
    (∀ k, k < cfgBackupIds.length →
      (solver_call_separation_solvers store primaryId cfgBackupIds base
        timeAdj outcome).1 (base + k) = store (cfgBackupIds.getD k 0)) := by
  have hresult : (solver_call_separation_solvers store primaryId
      cfgBackupIds base timeAdj outcome).1 =
      copy_backup_solvers store cfgBackupIds base :=
    solver_iteration_loop_store_eq _ _ _ _
  refine ⟨fun sid hsid => ?_, ?_, fun k hk => ?_⟩
  · rw [hresult, copy_backup_solvers_below _ _ _ _ (hb sid hsid)]
  · rw [hresult, copy_backup_solvers_below _ _ _ _ hp]
  · rw [hresult, copy_backup_solvers_fresh _ _ _ _ hk hb]

/-- C8 witness. One configured backup descriptor at location 1 and the
primary at location 0, fresh copies from location 2: after the call the
configured descriptors still hold their original settings, and the fresh
location holds the copied backup descriptor. -/
theorem solver_call_separation_config_frame_witness :
    (solver_call_separation_solvers (fun n => ⟨some (n : ℚ)⟩) 0 [1] 2 10
      (fun _ => .unacceptableStatus)).1 1 = ⟨some 1⟩ ∧
    (solver_call_separation_solvers (fun n => ⟨some (n : ℚ)⟩) 0 [1] 2 10
      (fun _ => .unacceptableStatus)).1 0 = ⟨some 0⟩ ∧
    (solver_call_separation_solvers (fun n => ⟨some (n : ℚ)⟩) 0 [1] 2 10
      (fun _ => .unacceptableStatus)).1 (2 + 0) = ⟨some 1⟩ := by
  have h := solver_call_separation_config_frame (fun n => ⟨some (n : ℚ)⟩)
    0 [1] 2 10 (fun _ => .unacceptableStatus)
    (by intro sid hsid; simp at hsid; omega) (by omega)
  exact ⟨h.1 1 (by simp), h.2.1, h.2.2 0 (by simp)⟩

/-! ### Termination conditions, separation results, priority scheduling -/

/-- The subset of `pyomo.opt.TerminationCondition` values the engine
distinguishes. -/
inductive TermCond where
  | optimal
  | locallyOptimal
  | globallyOptimal
  | infeasible
  | maxIterations
  | unknown
deriving DecidableEq, Repr

/-- Termination conditions acceptable for a local separation solve. -/
def locally_acceptable : List TermCond :=
  [.optimal, .locallyOptimal, .globallyOptimal]

/-- Termination conditions acceptable for a global separation solve. -/
def globally_acceptable : List TermCond := [.optimal, .globallyOptimal]

/-- Outcome of one separation subproblem solve
(`pyomo.contrib.pyros.solve_data.SeparationResult`), restricted to the
fields the checked properties mention. -/
structure SeparationResult where
  termination_condition : TermCond
  found_violation : Bool
  list_of_scaled_violations : List ℚ
deriving DecidableEq, Repr

instance : Inhabited SeparationResult := ⟨⟨.unknown, false, []⟩⟩

/-- Effective separation priority of a performance constraint: its
configured priority, defaulting to 0 (line 331). -/
def separation_priority (cfgPrio : ℕ → Option ℤ) (c : ℕ) : ℤ :=
  (cfgPrio c).getD 0

/-- Embedding of `sorted(list(set(...)), reverse=True)` (lines 336-338):
the distinct effective priorities, in descending order. -/
def sorted_unique_priorities (perfCons : List ℕ)
    (cfgPrio : ℕ → Option ℤ) : List ℤ :=
  List.insertionSort (· ≥ ·)
    ((perfCons.map (separation_priority cfgPrio)).dedup)

/-- Inner loop of `solve_separation_problem` over the constraints of one
priority bin (lines 366-454): activate the constraint's objective, solve
(`solveCon` yields the recorded `SeparationResult` and the
`exit_separation_loop` flag), return immediately when the flag is set
(leaving the objective active), otherwise deactivate the objective and
continue. Returns the attempted (constraint, result) pairs, the
constraint at which the loop exited (if any), the final activation set
and the trace of activation states. -/
def run_bin_constraints (solveCon : ℕ → SeparationResult × Bool)
    (active : Finset ℕ) :
    List ℕ → List (ℕ × SeparationResult) × Option ℕ × Finset ℕ ×
      List (Finset ℕ)
  | [] => ([], none, active, [])
  | c :: rest =>
    let activeOn := insert c active
    let res := solveCon c
    if res.2 then
      ([(c, res.1)], some c, activeOn, [activeOn])
    else
      let activeOff := activeOn.erase c
      let next := run_bin_constraints solveCon activeOff rest
      ((c, res.1) :: next.1, next.2.1, next.2.2.1,
        activeOn :: activeOff :: next.2.2.2)

/-- Outer loop of `solve_separation_problem` over the priority bins
(lines 358-455): for each priority value in order, process the bin of
constraints with that effective priority; an exit inside a bin returns
immediately, skipping all later bins. -/
def run_priority_bins (solveCon : ℕ → SeparationResult × Bool)
    (perfCons : List ℕ) (prio : ℕ → ℤ) (active : Finset ℕ) :
    List ℤ → List (ℕ × SeparationResult) × Option ℕ × Finset ℕ ×
      List (Finset ℕ)
  | [] => ([], none, active, [])
  | v :: vs =>
    let bin := perfCons.filter (fun c => prio c = v)
    let r := run_bin_constraints solveCon active bin
    match r.2.1 with
    | some c => (r.1, some c, r.2.2.1, r.2.2.2)
    | none =>
      let r2 := run_priority_bins solveCon perfCons prio r.2.2.1 vs
      (r.1 ++ r2.1, r2.2.1, r2.2.2.1, r.2.2.2 ++ r2.2.2.2)

/-- Embedding of one separation pass of `solve_separation_problem`: bin
the performance constraints by descending distinct effective priority
and run the bins in that order, starting from the given activation
state. Result: attempted (constraint, result) pairs, the exit constraint
(if a short-circuit occurred), and the trace of activation states
(including the initial one). -/
def solve_separation_problem_pass (solveCon : ℕ → SeparationResult × Bool)
    (perfCons : List ℕ) (cfgPrio : ℕ → Option ℤ) (initActive : Finset ℕ) :
    List (ℕ × SeparationResult) × Option ℕ × List (Finset ℕ) :=
  let r := run_priority_bins solveCon perfCons
    (separation_priority cfgPrio) initActive
    (sorted_unique_priorities perfCons cfgPrio)
  (r.1, r.2.1, initActive :: r.2.2.2)

/-- Every constraint attempted by a bin run belongs to the bin. -/
theorem run_bin_constraints_attempted_mem
    (solveCon : ℕ → SeparationResult × Bool) (active : Finset ℕ)
    (l : List ℕ) :
    ∀ p ∈ (run_bin_constraints solveCon active l).1, p.1 ∈ l := by
  induction l generalizing active with
  | nil => intro p hp; simp [run_bin_constraints] at hp
  | cons c rest ih =>
    intro p hp
    by_cases hexit : (solveCon c).2
    · simp only [run_bin_constraints, hexit, if_true] at hp
      simp at hp
      simp [hp]
    · simp only [run_bin_constraints, hexit, if_false, Bool.false_eq_true,
        List.mem_cons] at hp
      rcases hp with rfl | hp
      · simp
      · exact List.mem_cons_of_mem _ (ih _ p hp)

/-- The constraint at which a bin run exits belongs to the bin. -/
theorem run_bin_constraints_exit_mem
    (solveCon : ℕ → SeparationResult × Bool) (active : Finset ℕ)
    (l : List ℕ) (c : ℕ)
    (h : (run_bin_constraints solveCon active l).2.1 = some c) : c ∈ l := by
  induction l generalizing active with
  | nil => simp [run_bin_constraints] at h
  | cons c0 rest ih =>
    by_cases hexit : (solveCon c0).2
    · simp only [run_bin_constraints, hexit, if_true, Option.some.injEq] at h
      simp [h]
    · simp only [run_bin_constraints, hexit, if_false,
        Bool.false_eq_true] at h
      exact List.mem_cons_of_mem _ (ih _ h)

/-- The effective priority of every attempted constraint is one of the
processed bin values. -/
theorem run_priority_bins_attempted_prio
    (solveCon : ℕ → SeparationResult × Bool) (perfCons : List ℕ)
    (prio : ℕ → ℤ) (active : Finset ℕ) (vs : List ℤ) :
    ∀ p ∈ (run_priority_bins solveCon perfCons prio active vs).1,
      prio p.1 ∈ vs := by
  induction vs generalizing active with
  | nil => intro p hp; simp [run_priority_bins] at hp
  | cons v vs ih =>
    intro p hp
    simp only [run_priority_bins] at hp
    rcases hcase : (run_bin_constraints solveCon active
        (perfCons.filter (fun c => prio c = v))).2.1 with _ | c0 <;>
      simp only [hcase] at hp
    · rcases List.mem_append.mp hp with hp | hp
      · have := run_bin_constraints_attempted_mem solveCon active _ p hp
        have := List.of_mem_filter this
        simp at this
        simp [this]
      · exact List.mem_cons_of_mem _ (ih _ p hp)
    · have := run_bin_constraints_attempted_mem solveCon active _ p hp
      have := List.of_mem_filter this
      simp at this
      simp [this]

/-- The effective priority of the exit constraint is one of the
processed bin values. -/
theorem run_priority_bins_exit_prio
    (solveCon : ℕ → SeparationResult × Bool) (perfCons : List ℕ)
    (prio : ℕ → ℤ) (active : Finset ℕ) (vs : List ℤ) (c : ℕ)
    (h : (run_priority_bins solveCon perfCons prio active vs).2.1 = some c) :
    prio c ∈ vs := by
  induction vs generalizing active with
  | nil => simp [run_priority_bins] at h
  | cons v vs ih =>
    simp only [run_priority_bins] at h
    rcases hcase : (run_bin_constraints solveCon active
        (perfCons.filter (fun c => prio c = v))).2.1 with _ | c0 <;>
      simp only [hcase] at h
    · exact List.mem_cons_of_mem _ (ih _ h)
    · have hc0 : c0 = c := Option.some.inj h
      subst hc0
      have := run_bin_constraints_exit_mem solveCon active _ _ hcase
      have := List.of_mem_filter this
      simp at this
      simp [this]

/-- When the bins are processed in descending priority order and a
short-circuit exit occurs at constraint `c`, every attempted constraint
has effective priority at least that of `c`. -/
theorem run_priority_bins_exit_bound
    (solveCon : ℕ → SeparationResult × Bool) (perfCons : List ℕ)
    (prio : ℕ → ℤ) (active : Finset ℕ) (vs : List ℤ) (c : ℕ)
    (hsorted : List.Sorted (· ≥ ·) vs)
    (h : (run_priority_bins solveCon perfCons prio active vs).2.1 = some c) :
    ∀ p ∈ (run_priority_bins solveCon perfCons prio active vs).1,
      prio p.1 ≥ prio c := by
  induction vs generalizing active with
  | nil => simp [run_priority_bins] at h
  | cons v vs ih =>
    intro p hp
    simp only [run_priority_bins] at h hp
    rcases hcase : (run_bin_constraints solveCon active
        (perfCons.filter (fun c => prio c = v))).2.1 with _ | c0 <;>
      simp only [hcase] at h hp
    · -- no exit in this bin: the exit happened in a later (lower) bin
      have hc_tail : prio c ∈ vs :=
        run_priority_bins_exit_prio solveCon perfCons prio _ vs c h
      have hv_ge : v ≥ prio c :=
        (List.sorted_cons.mp hsorted).1 _ hc_tail
      rcases List.mem_append.mp hp with hp | hp
      · have hmem := run_bin_constraints_attempted_mem solveCon active _ p hp
        have hfil := List.of_mem_filter hmem
        simp at hfil
        rw [hfil]
        exact hv_ge
      · exact ih _ (List.sorted_cons.mp hsorted).2 h p hp
    · -- exit inside this bin: everything attempted has priority v
      have hc0 : c0 = c := Option.some.inj h
      subst hc0
      have hcmem := run_bin_constraints_exit_mem solveCon active _ _ hcase
      have hcfil := List.of_mem_filter hcmem
      simp at hcfil
      have hmem := run_bin_constraints_attempted_mem solveCon active _ p hp
      have hfil := List.of_mem_filter hmem
      simp at hfil
      rw [hfil, hcfil]

/-- The list of distinct effective priorities is strictly descending. -/
theorem sorted_unique_priorities_strict_desc (perfCons : List ℕ)
    (cfgPrio : ℕ → Option ℤ) :
    List.Sorted (· > ·) (sorted_unique_priorities perfCons cfgPrio) := by
  have hsorted : List.Sorted (· ≥ ·)
      (sorted_unique_priorities perfCons cfgPrio) :=
    List.sorted_insertionSort _ _
  have hnodup : (sorted_unique_priorities perfCons cfgPrio).Nodup :=
    ((List.perm_insertionSort (· ≥ ·) _).symm).nodup (List.nodup_dedup _)
  exact hsorted.gt_of_ge hnodup

/-- C4. In one separation pass, the priority bins are processed in
strictly descending numeric order, and if a short-circuit exit occurs
while constraint `c` (of priority `k = separation_priority cfgPrio c`)
is being processed, the pass returns immediately: every constraint that
was attempted has effective priority at least `k`, so no constraint of
any bin with priority below `k` is ever attempted in that call. -/
theorem solve_separation_problem_priority_spec
    (solveCon : ℕ → SeparationResult × Bool) (perfCons : List ℕ)
    (cfgPrio : ℕ → Option ℤ) (initActive : Finset ℕ) (c : ℕ)
    (hex : (solve_separation_problem_pass solveCon perfCons cfgPrio
      initActive).2.1 = some c) :
    List.Sorted (· > ·) (sorted_unique_priorities perfCons cfgPrio) ∧
    ∀ p ∈ (solve_separation_problem_pass solveCon perfCons cfgPrio
        initActive).1,
      separation_priority cfgPrio p.1 ≥ separation_priority cfgPrio c := by
  refine ⟨sorted_unique_priorities_strict_desc perfCons cfgPrio, ?_⟩
  have hsorted : List.Sorted (· ≥ ·)
      (sorted_unique_priorities perfCons cfgPrio) :=
    List.sorted_insertionSort _ _
  exact run_priority_bins_exit_bound solveCon perfCons
    (separation_priority cfgPrio) initActive
    (sorted_unique_priorities perfCons cfgPrio) c hsorted hex

/-- C4 witness. Three constraints with priorities 5, 1, 5; the solver
exits (time limit) at constraint 1, which sits in the lower-priority
bin, after both priority-5 constraints were attempted; every attempted
constraint has priority at least 1. -/
theorem solve_separation_problem_priority_spec_witness :
    (solve_separation_problem_pass
        (fun c => (⟨.optimal, false, []⟩, decide (c = 1))) [0, 1, 2]
        (fun c => if c = 1 then some 1 else some 5) ∅).2.1 = some 1 ∧
    List.Sorted (· > ·) (sorted_unique_priorities [0, 1, 2]
      (fun c => if c = 1 then some 1 else some 5)) ∧
    separation_priority (fun c => if c = 1 then some 1 else some 5)
        ((0 : ℕ), (⟨.optimal, false, []⟩ : SeparationResult)).1 ≥
      separation_priority (fun c => if c = 1 then some 1 else some 5) 1 :=
  have h := solve_separation_problem_priority_spec
    (fun c => (⟨.optimal, false, []⟩, decide (c = 1))) [0, 1, 2]
    (fun c => if c = 1 then some 1 else some 5) ∅ 1 (by decide)
  ⟨by decide, h.1, h.2 (0, ⟨.optimal, false, []⟩) (by decide)⟩

/-! ### At most one active separation objective (C9) -/

/-- Embedding of the final loop of `make_separation_objective_functions`
(lines 111-112): deactivate every synthesized separation objective,
starting from whatever activation state construction left. -/
def deactivate_all_objectives (objs : List ℕ) (s : Finset ℕ) : Finset ℕ :=
  objs.foldl Finset.erase s

/-- Deactivating every synthesized objective empties the activation set
whenever only synthesized objectives were active. -/
theorem deactivate_all_objectives_empty (objs : List ℕ) (s : Finset ℕ)
    (h : ∀ x ∈ s, x ∈ objs) : deactivate_all_objectives objs s = ∅ := by
  induction objs generalizing s with
  | nil =>
    have : s = ∅ := Finset.eq_empty_of_forall_not_mem (fun x hx => by
      simpa using h x hx)
    simpa [deactivate_all_objectives]
  | cons o rest ih =>
    have h' : ∀ x ∈ s.erase o, x ∈ rest := by
      intro x hx
      have hxs := Finset.mem_of_mem_erase hx
      have hxo := Finset.ne_of_mem_erase hx
      rcases List.mem_cons.mp (h x hxs) with rfl | hxr
      · exact absurd rfl hxo
      · exact hxr
    simpa [deactivate_all_objectives] using ih (s.erase o) h'

/-- Starting from an empty activation set, every activation state a bin
run passes through contains at most one objective, and if the bin exits
normally the final state is empty again. -/
theorem run_bin_constraints_active_card
    (solveCon : ℕ → SeparationResult × Bool) (l : List ℕ) :
    (∀ st ∈ (run_bin_constraints solveCon ∅ l).2.2.2, st.card ≤ 1) ∧
    ((run_bin_constraints solveCon ∅ l).2.1 = none →
      (run_bin_constraints solveCon ∅ l).2.2.1 = ∅) := by
  induction l with
  | nil => simp [run_bin_constraints]
  | cons c rest ih =>
    by_cases hexit : (solveCon c).2
    · refine ⟨?_, ?_⟩
      · intro st hst
        simp only [run_bin_constraints, hexit, if_true,
          List.mem_singleton] at hst
        subst hst
        simp
      · intro hnone
        simp [run_bin_constraints, hexit] at hnone
    · have herase : (insert c (∅ : Finset ℕ)).erase c = ∅ := by simp
      refine ⟨?_, ?_⟩
      · intro st hst
        simp only [run_bin_constraints, hexit, if_false, Bool.false_eq_true,
          herase, List.mem_cons] at hst
        rcases hst with rfl | rfl | hst
        · simp
        · simp
        · exact ih.1 st hst
      · intro hnone
        simp only [run_bin_constraints, hexit, if_false, Bool.false_eq_true,
          herase] at hnone ⊢
        exact ih.2 hnone

/-- Starting from an empty activation set, every activation state the
priority-bin loop passes through contains at most one objective, and a
normally finishing loop ends with the empty activation state. -/
theorem run_priority_bins_active_card
    (solveCon : ℕ → SeparationResult × Bool) (perfCons : List ℕ)
    (prio : ℕ → ℤ) (vs : List ℤ) :
    (∀ st ∈ (run_priority_bins solveCon perfCons prio ∅ vs).2.2.2,
      st.card ≤ 1) ∧
    ((run_priority_bins solveCon perfCons prio ∅ vs).2.1 = none →
      (run_priority_bins solveCon perfCons prio ∅ vs).2.2.1 = ∅) := by
  induction vs with
  | nil => simp [run_priority_bins]
  | cons v vs ih =>
    have hbin := run_bin_constraints_active_card solveCon
      (perfCons.filter (fun c => prio c = v))
    rcases hcase : (run_bin_constraints solveCon ∅
        (perfCons.filter (fun c => prio c = v))).2.1 with _ | c0
    · have hfin := hbin.2 hcase
      refine ⟨?_, ?_⟩
      · intro st hst
        simp only [run_priority_bins, hcase, hfin, List.mem_append] at hst
        rcases hst with hst | hst
        · exact hbin.1 st hst
        · exact ih.1 st hst
      · intro hnone
        simp only [run_priority_bins, hcase, hfin] at hnone ⊢
        exact ih.2 hnone
    · refine ⟨?_, ?_⟩
      · intro st hst
        simp only [run_priority_bins, hcase] at hst
        exact hbin.1 st hst
      · intro hnone
        simp [run_priority_bins, hcase] at hnone

/-- C9. When a separation pass starts right after construction — all
synthesized objectives deactivated by the final loop of
`make_separation_objective_functions` — then at every point of the pass
(initially, during each solve, and between solves) at most one
separation objective is active. -/
theorem at_most_one_active_objective
    (solveCon : ℕ → SeparationResult × Bool) (perfCons : List ℕ)
    (cfgPrio : ℕ → Option ℤ) (objs : List ℕ) (s0 : Finset ℕ)
    (h : ∀ x ∈ s0, x ∈ objs) :
    ∀ st ∈ (solve_separation_problem_pass solveCon perfCons cfgPrio
      (deactivate_all_objectives objs s0)).2.2, st.card ≤ 1 := by
  intro st hst
  rw [deactivate_all_objectives_empty objs s0 h] at hst
  simp only [solve_separation_problem_pass, List.mem_cons] at hst
  rcases hst with rfl | hst
  · simp
  · exact (run_priority_bins_active_card solveCon perfCons
      (separation_priority cfgPrio) _).1 st hst

/-- C9 witness. Two constraints, both objectives active right after
synthesis; after the construction-time deactivation loop and throughout
the pass, every activation state has at most one member. -/
theorem at_most_one_active_objective_witness :
    ({0} : Finset ℕ).card ≤ 1 :=
  at_most_one_active_objective
    (fun c => (⟨.optimal, false, []⟩, decide (c = 0))) [0, 1]
    (fun _ => none) [0, 1] {0, 1} (by decide) {0} (by decide)

/-! ### Backup-solver exhaustion (C6) -/

/-- Classification of one backup-solver attempt as the retry loop of
`solver_call_separation` sees it: the termination condition the solver
reported, and whether the PyROS elapsed-time check right after the solve
found the budget exceeded. -/
structure SolverAttemptOutcome where
  termination_condition : TermCond
  time_limit_exceeded : Bool
deriving DecidableEq, Repr

/-- Embedding of the solver retry loop of `solver_call_separation`
(lines 677-761), at the level of one performance constraint: iterate the
attempts in order, recording each termination condition in the result;
a time-limit hit reports no violation and returns `true`
(`exit_separation_loop`); an acceptable termination condition loads the
solution (here: the violation flag `onFound` and scaled violations
`onScaled` computed by `update_solve_data_violations`) and returns
`false`; an unacceptable one moves to the next backup. Exhausting the
list reports no violation and returns `true`. -/
def solver_call_separation (acceptable : List TermCond) (onFound : Bool)
    (onScaled : List ℚ) (solve_data : SeparationResult) :
    List SolverAttemptOutcome → SeparationResult × Bool
  | [] => ({ solve_data with found_violation := false }, true)
  | a :: rest =>
    let sd := { solve_data with
      termination_condition := a.termination_condition }
    if a.time_limit_exceeded then
      ({ sd with found_violation := false }, true)
    else if acceptable.contains a.termination_condition then
      (⟨a.termination_condition, onFound, onScaled⟩, false)
    else solver_call_separation acceptable onFound onScaled sd rest

/-- Exhausting the backup list (no time-limit hit, no acceptable status)
reports `found_violation = false` and signals the caller to exit. -/
theorem solver_call_separation_exhausted (acceptable : List TermCond)
    (onFound : Bool) (onScaled : List ℚ) (solve_data : SeparationResult)
    (attempts : List SolverAttemptOutcome)
    (hexh : ∀ a ∈ attempts, a.time_limit_exceeded = false ∧
      acceptable.contains a.termination_condition = false) :
    (solver_call_separation acceptable onFound onScaled solve_data
      attempts).1.found_violation = false ∧
    (solver_call_separation acceptable onFound onScaled solve_data
      attempts).2 = true := by
  induction attempts generalizing solve_data with
  | nil => exact ⟨rfl, rfl⟩
  | cons a rest ih =>
    have ha := hexh a (List.mem_cons_self a rest)
    have hrest : ∀ x ∈ rest, x.time_limit_exceeded = false ∧
        acceptable.contains x.termination_condition = false :=
      fun x hx => hexh x (List.mem_cons_of_mem _ hx)
    simp only [solver_call_separation, ha.1, ha.2, Bool.false_eq_true,
      if_false]
    exact ih _ hrest

/-- Appending to the front of a nonempty list keeps its last element. -/
theorem getLast?_cons_of_ne {α : Type _} (a : α) (l : List α)
    (h : l ≠ []) : (a :: l).getLast? = l.getLast? := by
  cases l with
  | nil => exact absurd rfl h
  | cons b t => exact List.getLast?_cons_cons

/-- If a bin run attempts constraint `c0` whose solve signals an exit,
then the run exits exactly there: `c0` closes the attempted list and is
reported as the exit constraint. -/
theorem run_bin_constraints_exit_at (solveCon : ℕ → SeparationResult × Bool)
    (active : Finset ℕ) (l : List ℕ) (c0 : ℕ) (r : SeparationResult)
    (hflag : (solveCon c0).2 = true)
    (hmem : (c0, r) ∈ (run_bin_constraints solveCon active l).1) :
    (run_bin_constraints solveCon active l).2.1 = some c0 ∧
    (run_bin_constraints solveCon active l).1.getLast? = some (c0, r) := by
  induction l generalizing active with
  | nil => simp [run_bin_constraints] at hmem
  | cons c rest ih =>
    by_cases hexit : (solveCon c).2
    · simp only [run_bin_constraints, hexit, if_true,
        List.mem_singleton] at hmem ⊢
      injection hmem with h1 h2
      subst h1
      subst h2
      simp
    · simp only [run_bin_constraints, hexit, if_false, Bool.false_eq_true,
        List.mem_cons] at hmem ⊢
      rcases hmem with heq | hmem
      · exfalso
        injection heq with h1 h2
        subst h1
        rw [hflag] at hexit
        exact hexit rfl
      · obtain ⟨h1, h2⟩ := ih _ hmem
        refine ⟨h1, ?_⟩
        rw [getLast?_cons_of_ne _ _ (List.ne_nil_of_mem hmem)]
        exact h2

/-- If the priority-bin loop attempts constraint `c0` whose solve
signals an exit, the loop exits exactly there: `c0` closes the attempted
list and is reported as the exit constraint, so no later constraint or
bin is attempted. -/
theorem run_priority_bins_exit_at (solveCon : ℕ → SeparationResult × Bool)
    (perfCons : List ℕ) (prio : ℕ → ℤ) (active : Finset ℕ) (vs : List ℤ)
    (c0 : ℕ) (r : SeparationResult)
    (hflag : (solveCon c0).2 = true)
    (hmem : (c0, r) ∈ (run_priority_bins solveCon perfCons prio active vs).1) :
    (run_priority_bins solveCon perfCons prio active vs).2.1 = some c0 ∧
    (run_priority_bins solveCon perfCons prio active vs).1.getLast? =
      some (c0, r) := by
  induction vs generalizing active with
  | nil => simp [run_priority_bins] at hmem
  | cons v vs ih =>
    rcases hcase : (run_bin_constraints solveCon active
        (perfCons.filter (fun c => prio c = v))).2.1 with _ | c1
    · simp only [run_priority_bins, hcase, List.mem_append] at hmem ⊢
      rcases hmem with hmem | hmem
      · exfalso
        have := (run_bin_constraints_exit_at solveCon active _ c0 r
          hflag hmem).1
        rw [this] at hcase
        exact Option.noConfusion hcase
      · obtain ⟨h1, h2⟩ := ih _ hmem
        refine ⟨h1, ?_⟩
        rw [List.getLast?_append_of_ne_nil _ (List.ne_nil_of_mem hmem)]
        exact h2
    · simp only [run_priority_bins, hcase] at hmem ⊢
      have h := run_bin_constraints_exit_at solveCon active _ c0 r hflag hmem
      rw [hcase] at h
      exact h

/-- C6 counterexample. Constraint 0 exhausts both of its (unacceptable)
solver attempts while constraint 1, in the same priority bin, would
solve successfully; the pass nevertheless attempts only constraint 0 and
exits there, so scheduling does NOT continue to the remaining
performance constraints. -/
theorem solver_exhaustion_counterexample :
    (solve_separation_problem_pass
        (fun c => if c = 0 then
          solver_call_separation locally_acceptable true []
            ⟨.unknown, false, []⟩
            [⟨.infeasible, false⟩, ⟨.maxIterations, false⟩]
        else (⟨.optimal, true, []⟩, false)) [0, 1] (fun _ => none) ∅).1 =
      [(0, ⟨.maxIterations, false, []⟩)] ∧
    (solve_separation_problem_pass
        (fun c => if c = 0 then
          solver_call_separation locally_acceptable true []
            ⟨.unknown, false, []⟩
            [⟨.infeasible, false⟩, ⟨.maxIterations, false⟩]
        else (⟨.optimal, true, []⟩, false)) [0, 1] (fun _ => none) ∅).2.1 =
      some 0 := by
  constructor <;> rfl

/-- C6 (amended). For every constraint whose backup-solver list is
exhausted without a time-limit hit or an acceptable termination status,
the recorded result reports `found_violation = false` and the solver
call signals an exit; consequently, if that constraint is attempted in a
separation pass, the pass exits right there — the attempted list ends at
this constraint and no remaining performance constraint or lower
priority bin is attempted in that call. -/
theorem solver_exhaustion_aborts_pass (acceptable : List TermCond)
    (onFound : Bool) (onScaled : List ℚ) (sd0 : SeparationResult)
    (attempts : List SolverAttemptOutcome)
    (solveCon : ℕ → SeparationResult × Bool) (perfCons : List ℕ)
    (cfgPrio : ℕ → Option ℤ) (initActive : Finset ℕ) (c0 : ℕ)
    (r : SeparationResult)
    (hexh : ∀ a ∈ attempts, a.time_limit_exceeded = false ∧
      acceptable.contains a.termination_condition = false)
    (hcon : solveCon c0 =
      solver_call_separation acceptable onFound onScaled sd0 attempts)
    (hmem : (c0, r) ∈ (solve_separation_problem_pass solveCon perfCons
      cfgPrio initActive).1) :
    (solveCon c0).1.found_violation = false ∧
    (solveCon c0).2 = true ∧
    (solve_separation_problem_pass solveCon perfCons cfgPrio
      initActive).2.1 = some c0 ∧
    (solve_separation_problem_pass solveCon perfCons cfgPrio
      initActive).1.getLast? = some (c0, r) := by
  have hs := solver_call_separation_exhausted acceptable onFound onScaled
    sd0 attempts hexh
  have h1 : (solveCon c0).1.found_violation = false := by
    rw [hcon]; exact hs.1
  have h2 : (solveCon c0).2 = true := by
    rw [hcon]; exact hs.2
  have h3 := run_priority_bins_exit_at solveCon perfCons
    (separation_priority cfgPrio) initActive
    (sorted_unique_priorities perfCons cfgPrio) c0 r h2 hmem
  exact ⟨h1, h2, h3.1, h3.2⟩

/-- C6 amended-theorem witness at the concrete two-constraint
instance. -/
theorem solver_exhaustion_aborts_pass_witness :
    ((fun c => if c = 0 then
        solver_call_separation locally_acceptable true []
          ⟨.unknown, false, []⟩
          [⟨.infeasible, false⟩, ⟨.maxIterations, false⟩]
      else ((⟨.optimal, true, []⟩ : SeparationResult), false))
        0).1.found_violation = false ∧
    ((fun c => if c = 0 then
        solver_call_separation locally_acceptable true []
          ⟨.unknown, false, []⟩
          [⟨.infeasible, false⟩, ⟨.maxIterations, false⟩]
      else ((⟨.optimal, true, []⟩ : SeparationResult), false)) 0).2 = true ∧
    (solve_separation_problem_pass
        (fun c => if c = 0 then
          solver_call_separation locally_acceptable true []
            ⟨.unknown, false, []⟩
            [⟨.infeasible, false⟩, ⟨.maxIterations, false⟩]
        else (⟨.optimal, true, []⟩, false)) [0, 1] (fun _ => none) ∅).2.1 =
      some 0 ∧
    (solve_separation_problem_pass
        (fun c => if c = 0 then
          solver_call_separation locally_acceptable true []
            ⟨.unknown, false, []⟩
            [⟨.infeasible, false⟩, ⟨.maxIterations, false⟩]
        else (⟨.optimal, true, []⟩, false)) [0, 1]
        (fun _ => none) ∅).1.getLast? =
      some (0, ⟨.maxIterations, false, []⟩) :=
  solver_exhaustion_aborts_pass locally_acceptable true []
    ⟨.unknown, false, []⟩ [⟨.infeasible, false⟩, ⟨.maxIterations, false⟩]
    (fun c => if c = 0 then
      solver_call_separation locally_acceptable true []
        ⟨.unknown, false, []⟩
        [⟨.infeasible, false⟩, ⟨.maxIterations, false⟩]
    else (⟨.optimal, true, []⟩, false)) [0, 1] (fun _ => none) ∅ 0
    ⟨.maxIterations, false, []⟩ (by decide) rfl (by decide)

/-! ### Discrete-scenario enumeration (C5) -/

/-- The scenario indices already incorporated into the master problem:
each accumulated point is looked up by index in the configured scenario
list (line 778). -/
def discrete_skip_scenarios (scenarios points : List (List ℚ)) : Finset ℕ :=
  (points.map (fun pnt =>
    @List.indexOf (List ℚ) instBEqOfDecidableEq pnt scenarios)).toFinset

/-- The positions of the uncertainty-set constraints to skip: one
contiguous block `[D*idx, D*idx + D)` per already-incorporated scenario
(lines 777-782), collected as a set. -/
def discrete_skip_indices (D : ℕ) (scenarios points : List (List ℚ)) :
    Finset ℕ :=
  (discrete_skip_scenarios scenarios points).biUnion
    (fun s => Finset.Ico (D * s) (D * s + D))

/-- Embedding of `discrete_solve` (lines 764-803): the uncertainty-set
constraints (identified by their position in the constraint list) whose
positions fall in an already-incorporated scenario's block are skipped;
the remaining constraints are processed in chunks of `D =
len(uncertain_param_vars)` (one square solve per chunk, via
`range(0, len(constraints), chunk_size)`), producing one
`SeparationResult` per chunk. -/
def discrete_solve (solveChunk : List ℕ → SeparationResult) (D : ℕ)
    (scenarios points : List (List ℚ)) (num_constraints : ℕ) :
    List SeparationResult :=
  let constraints := (List.range num_constraints).filter
    (fun i => i ∉ discrete_skip_indices D scenarios points)
  let starts := List.range' 0 ((constraints.length + D - 1) / D) D
  starts.map (fun i => solveChunk ((constraints.drop i).take D))

/-- A constraint position is skipped exactly when its scenario block
index is an already-incorporated scenario. -/
theorem mem_discrete_skip_indices (D : ℕ) (hD : 0 < D)
    (scenarios points : List (List ℚ)) (i : ℕ) :
    i ∈ discrete_skip_indices D scenarios points ↔
      i / D ∈ discrete_skip_scenarios scenarios points := by
  simp only [discrete_skip_indices, Finset.mem_biUnion, Finset.mem_Ico]
  constructor
  · rintro ⟨s, hs, hle, hlt⟩
    have h1 : s * D ≤ i := by rw [mul_comm]; exact hle
    have h2 : i < (s + 1) * D := by rw [Nat.succ_mul, mul_comm s D]; omega
    rw [Nat.div_eq_of_lt_le h1 h2]
    exact hs
  · intro hs
    have hmod := Nat.div_add_mod i D
    have hlt := Nat.mod_lt i hD
    exact ⟨i / D, hs, by omega, by omega⟩

/-- Removing the blocks of the `A` already-incorporated scenarios from
the first `n * D` constraint positions leaves `(n - A) * D` positions,
where `A` counts the incorporated scenarios among the first `n`. -/
theorem discrete_remaining_count (D : ℕ) (hD : 0 < D)
    (scenarios points : List (List ℚ)) (n : ℕ) :
    ((List.range (n * D)).filter
      (fun i => i ∉ discrete_skip_indices D scenarios points)).length =
      (n - ((discrete_skip_scenarios scenarios points) ∩
        Finset.range n).card) * D := by
  induction n with
  | zero => simp
  | succ n ih =>
    have hA : ((discrete_skip_scenarios scenarios points) ∩
        Finset.range n).card ≤ n := by
      calc ((discrete_skip_scenarios scenarios points) ∩
            Finset.range n).card
          ≤ (Finset.range n).card :=
            Finset.card_le_card (Finset.inter_subset_right)
        _ = n := Finset.card_range n
    have hdecomp : (n + 1) * D = n * D + D := by ring
    rw [hdecomp, List.range_add, List.filter_append, List.length_append, ih]
    have hdiv : ∀ x, x < D → (n * D + x) / D = n := by
      intro x hx
      have h1 : n * D ≤ n * D + x := Nat.le_add_right _ _
      have h2 : n * D + x < (n + 1) * D := by
        rw [Nat.succ_mul]
        omega
      exact Nat.div_eq_of_lt_le h1 h2
    have hinter : ((discrete_skip_scenarios scenarios points) ∩
        Finset.range (n + 1)).card =
        (if n ∈ discrete_skip_scenarios scenarios points then
          ((discrete_skip_scenarios scenarios points) ∩
            Finset.range n).card + 1
        else ((discrete_skip_scenarios scenarios points) ∩
          Finset.range n).card) := by
      rw [Finset.inter_comm, Finset.range_succ]
      by_cases hn : n ∈ discrete_skip_scenarios scenarios points
      · rw [Finset.insert_inter_of_mem hn, if_pos hn,
          Finset.card_insert_of_not_mem (by
            intro hcontra
            exact absurd (Finset.mem_of_mem_inter_left hcontra)
              (by simp)),
          Finset.inter_comm]
      · rw [Finset.insert_inter_of_not_mem hn, if_neg hn,
          Finset.inter_comm]
    by_cases hn : n ∈ discrete_skip_scenarios scenarios points
    · have hblock : (((List.range D).map (fun x => n * D + x)).filter
          (fun i => i ∉ discrete_skip_indices D scenarios points)).length
          = 0 := by
        rw [← List.countP_eq_length_filter, List.countP_map,
          List.countP_eq_zero]
        intro x hx
        have hxlt : x < D := List.mem_range.mp hx
        simp only [Function.comp_apply, decide_eq_true_eq]
        intro hnot
        apply hnot
        rw [mem_discrete_skip_indices D hD, hdiv x hxlt]
        exact hn
      rw [hblock, hinter, if_pos hn]
      have : n + 1 - (((discrete_skip_scenarios scenarios points) ∩
          Finset.range n).card + 1) =
          n - ((discrete_skip_scenarios scenarios points) ∩
            Finset.range n).card := by omega
      rw [this, Nat.add_zero]
    · have hblock : (((List.range D).map (fun x => n * D + x)).filter
          (fun i => i ∉ discrete_skip_indices D scenarios points)).length
          = D := by
        rw [← List.countP_eq_length_filter, List.countP_map]
        have := List.countP_eq_length (p := (fun i =>
            decide (i ∉ discrete_skip_indices D scenarios points)) ∘
            (fun x => n * D + x)) (l := List.range D)
        rw [this.mpr, List.length_range]
        intro x hx
        have hxlt : x < D := List.mem_range.mp hx
        simp only [Function.comp_apply, decide_eq_true_eq]
        intro hcontra
        rw [mem_discrete_skip_indices D hD, hdiv x hxlt] at hcontra
        exact hn hcontra
      rw [hblock, hinter, if_neg hn]
      have : n + 1 - ((discrete_skip_scenarios scenarios points) ∩
          Finset.range n).card =
          (n - ((discrete_skip_scenarios scenarios points) ∩
            Finset.range n).card) + 1 := by omega
      rw [this, Nat.succ_mul]

/-- C5. For a discrete uncertainty set with `S` scenarios of which the
`A` distinct scenarios of the accumulated master points are already
incorporated (identified by index lookup into the configured scenario
list), one invocation of `discrete_solve` skips exactly those scenario
blocks and produces exactly `S - A` separation results, one per
remaining scenario. -/
theorem discrete_solve_result_count (solveChunk : List ℕ → SeparationResult)
    (D S : ℕ) (scenarios points : List (List ℚ))
    (hD : 0 < D) (hS : scenarios.length = S)
    (hp : ∀ p ∈ points, p ∈ scenarios) :
    (discrete_solve solveChunk D scenarios points (S * D)).length =
      S - (discrete_skip_scenarios scenarios points).card := by
  have hsub : discrete_skip_scenarios scenarios points ⊆ Finset.range S := by
    intro s hs
    simp only [discrete_skip_scenarios, List.mem_toFinset,
      List.mem_map] at hs
    obtain ⟨p, hpmem, rfl⟩ := hs
    rw [Finset.mem_range, ← hS]
    exact List.indexOf_lt_length.mpr (hp p hpmem)
  have hinter : discrete_skip_scenarios scenarios points ∩
      Finset.range S = discrete_skip_scenarios scenarios points :=
    Finset.inter_eq_left.mpr hsub
  have hcount := discrete_remaining_count D hD scenarios points S
  rw [hinter] at hcount
  have hlen : (discrete_solve solveChunk D scenarios points (S * D)).length
      = ((((List.range (S * D)).filter
        (fun i => i ∉ discrete_skip_indices D scenarios points)).length)
          + D - 1) / D := by
    simp [discrete_solve]
  rw [hlen, hcount]
  have hrw : (S - (discrete_skip_scenarios scenarios points).card) * D
      + D - 1 =
      D * (S - (discrete_skip_scenarios scenarios points).card)
        + (D - 1) := by
    rw [mul_comm]
    omega
  rw [hrw, Nat.mul_add_div hD, Nat.div_eq_of_lt (by omega : D - 1 < D),
    Nat.add_zero]

/-- C5 witness. Two singleton scenarios, one already in the master: the
enumerator produces exactly 2 - 1 = 1 result. -/
theorem discrete_solve_result_count_witness :
    (discrete_solve (fun _ => ⟨.optimal, false, []⟩) 1
      [[(0 : ℚ)], [(1 : ℚ)]] [[(0 : ℚ)]] (2 * 1)).length =
      2 - (discrete_skip_scenarios [[(0 : ℚ)], [(1 : ℚ)]]
        [[(0 : ℚ)]]).card :=
  discrete_solve_result_count (fun _ => ⟨.optimal, false, []⟩) 1 2
    [[(0 : ℚ)], [(1 : ℚ)]] [[(0 : ℚ)]] (by decide) rfl (by decide)

/-! ### Worst-case violation aggregation (C3) -/

/-- Python's `max` over the pairs `(scaled value at the row index, entry
index)` of one row (line 237-239): the lexicographically largest pair
wins (larger index breaks value ties); the winning index is kept. -/
def lexArgmax (l : List ℚ) : ℕ :=
  (l.enum.foldl (fun best p =>
    if best.2 < p.2 ∨ (best.2 = p.2 ∧ best.1 < p.1) then p else best)
    (0, l.getD 0 0)).1

/-- The scenario index recorded for one violating realization row
(lines 236-244): with more than one violating entry, the index of the
lexicographically largest `(scaled violation at the row index, index)`
pair over the whole row; with exactly one violating entry, the index of
that entry. -/
def discrete_violation_index (idx : ℕ) (row : List SeparationResult) : ℕ :=
  if 1 < (row.filter (·.found_violation)).length then
    lexArgmax (row.map (fun r => r.list_of_scaled_violations.getD idx 0))
  else row.findIdx (·.found_violation)

/-- The rows of the recorded results that contain a violation, paired
with their realization index (lines 233-246). -/
def violating_rows (sdl : List (List SeparationResult)) :
    List (ℕ × List SeparationResult) :=
  sdl.enum.filter (fun p => p.2.any (·.found_violation))

/-- The realization indices whose first recorded result is violating
(lines 256-259, continuous geometry; `idx_j = 0`). -/
def violating_indices_cont (sdl : List (List SeparationResult)) : List ℕ :=
  (sdl.enum.filter
    (fun p => (p.2.getD 0 default).found_violation)).map (·.1)

/-- `matrix_dim` (lines 228-255): for discrete geometry, the number of
realizations with a violating entry; for continuous geometry, the total
number of violating results across all (singleton) rows. -/
def violation_matrix_dim (is_discrete : Bool)
    (sdl : List (List SeparationResult)) : ℕ :=
  if is_discrete then (violating_rows sdl).length
  else sdl.flatten.countP (·.found_violation)

/-- The violations matrix (lines 265-297): one row per violating
realization, one column per performance constraint, each entry the
nonnegative part `max(scaled violation, 0)`; discrete rows read the
scaled violations of the scenario selected by
`discrete_violation_index`, continuous rows read those of the row's
single result. -/
def violation_matrix (is_discrete : Bool) (nCons : ℕ)
    (sdl : List (List SeparationResult)) : List (List ℚ) :=
  if is_discrete then
    (violating_rows sdl).map (fun p =>
      (List.range nCons).map (fun j =>
        max ((p.2.getD (discrete_violation_index p.1 p.2)
          default).list_of_scaled_violations.getD j 0) 0))
  else
    (List.range (violation_matrix_dim false sdl)).map (fun i =>
      (List.range nCons).map (fun j =>
        max (((sdl.getD ((violating_indices_cont sdl).getD i 0) []).getD 0
          default).list_of_scaled_violations.getD j 0) 0))

/-- The per-column sums of the violations matrix (lines 299-305). -/
def column_sums (nCons : ℕ) (mat : List (List ℚ)) : List ℚ :=
  (List.range nCons).map (fun j => (mat.map (fun row => row.getD j 0)).sum)

/-- Embedding of `get_index_of_max_violation` (lines 222-312): with no
violating realization return the sentinel pair; otherwise build the
violations matrix, sum its columns, and return the first column index
attaining the maximal sum (`sums.index(max(sums))`) together with the
realization index (the selected scenario for discrete geometry, 0 for
continuous geometry). `Except.error` models the uncaught Python
exceptions: `max` of an empty sum list and a missing key in the
scenario dictionary. -/
def get_index_of_max_violation (is_discrete : Bool) (nCons : ℕ)
    (sdl : List (List SeparationResult)) : Except Unit (Option (ℕ × ℕ)) :=
  if violation_matrix_dim is_discrete sdl = 0 then .ok none
  else
    let sums := column_sums nCons (violation_matrix is_discrete nCons sdl)
    match sums.max? with
    | none => .error ()
    | some max_value =>
      let idx_i := sums.findIdx (· = max_value)
      if is_discrete then
        match ((violating_rows sdl).map
            (fun p => (p.1, discrete_violation_index p.1 p.2))).lookup
            idx_i with
        | none => .error ()
        | some idx_j => .ok (some (idx_i, idx_j))
      else .ok (some (idx_i, 0))

/-- The matrix dimension is zero exactly when no recorded result found a
violation. -/
theorem violation_matrix_dim_eq_zero_iff (is_discrete : Bool)
    (sdl : List (List SeparationResult)) :
    violation_matrix_dim is_discrete sdl = 0 ↔
      ∀ row ∈ sdl, ∀ r ∈ row, r.found_violation = false := by
  cases is_discrete
  · simp only [violation_matrix_dim, Bool.false_eq_true, if_false]
    rw [List.countP_eq_zero]
    constructor
    · intro h row hrow r hr
      have hmem : r ∈ sdl.flatten := List.mem_flatten.mpr ⟨row, hrow, hr⟩
      simpa using h r hmem
    · intro h r hr
      obtain ⟨row, hrow, hrmem⟩ := List.mem_flatten.mp hr
      simp [h row hrow r hrmem]
  · simp only [violation_matrix_dim, if_true]
    rw [List.length_eq_zero, violating_rows, List.filter_eq_nil_iff]
    constructor
    · intro h row hrow r hr
      obtain ⟨i, hi, hget⟩ := List.mem_iff_getElem.mp hrow
      have hpair : ((i, row) : ℕ × List SeparationResult) ∈ sdl.enum := by
        rw [List.mem_enum_iff_getElem?]
        simp [List.getElem?_eq_getElem hi, hget]
      have := h _ hpair
      simp only [List.any_eq_true, not_exists, not_and] at this
      rcases hfound : r.found_violation with _ | _
      · rfl
      · exact absurd hfound (by simpa using this r hr)
    · intro h p hp
      have hrow : p.2 ∈ sdl := List.snd_mem_of_mem_enum hp
      simp only [List.any_eq_true, not_exists, not_and]
      intro r hr
      simp [h p.2 hrow r hr]

/-- The number of violating rows equals the count of rows containing a
violation. -/
theorem violating_rows_length (sdl : List (List SeparationResult)) :
    (violating_rows sdl).length =
      sdl.countP (fun row => row.any (·.found_violation)) := by
  rw [violating_rows, ← List.countP_eq_length_filter]
  have hcomp : (fun (p : ℕ × List SeparationResult) =>
      p.2.any (·.found_violation)) =
      (fun row => row.any (·.found_violation)) ∘ Prod.snd := rfl
  rw [hcomp, ← List.countP_map, List.enum_map_snd]

/-- The list of violating continuous realization indices has as many
entries as there are rows whose first result is violating. -/
theorem violating_indices_cont_length (sdl : List (List SeparationResult)) :
    (violating_indices_cont sdl).length =
      sdl.countP (fun row => (row.getD 0 default).found_violation) := by
  rw [violating_indices_cont, List.length_map,
    ← List.countP_eq_length_filter]
  have hcomp : (fun (p : ℕ × List SeparationResult) =>
      (p.2.getD 0 default).found_violation) =
      (fun row => (row.getD 0 default).found_violation) ∘ Prod.snd := rfl
  rw [hcomp, ← List.countP_map, List.enum_map_snd]

/-- A fold that only ever keeps pairs drawn from the enumeration keeps
its index below the list length. -/
theorem lexArgmax_aux (n : ℕ) (xs : List (ℕ × ℚ)) (init : ℕ × ℚ)
    (hxs : ∀ p ∈ xs, p.1 < n) (hinit : init.1 < n) :
    (xs.foldl (fun best p =>
      if best.2 < p.2 ∨ (best.2 = p.2 ∧ best.1 < p.1) then p else best)
      init).1 < n := by
  induction xs generalizing init with
  | nil => exact hinit
  | cons x xs ih =>
    have hx : x.1 < n := hxs x (List.mem_cons_self x xs)
    have hxs' : ∀ p ∈ xs, p.1 < n :=
      fun p hp => hxs p (List.mem_cons_of_mem _ hp)
    simp only [List.foldl_cons]
    by_cases hc : init.2 < x.2 ∨ (init.2 = x.2 ∧ init.1 < x.1)
    · rw [if_pos hc]; exact ih _ hxs' hx
    · rw [if_neg hc]; exact ih _ hxs' hinit

/-- The lexicographic argmax of a nonempty list is a valid index. -/
theorem lexArgmax_lt_length (l : List ℚ) (h : l ≠ []) :
    lexArgmax l < l.length := by
  have hpos : 0 < l.length := List.length_pos.mpr h
  refine lexArgmax_aux l.length l.enum (0, l.getD 0 0) ?_ hpos
  intro p hp
  have := List.mem_enum_iff_getElem?.mp hp
  exact (List.getElem?_eq_some.mp this).1

/-- The scenario index selected for a violating row is a valid index
into that row. -/
theorem discrete_violation_index_lt (idx : ℕ)
    (row : List SeparationResult)
    (h : row.any (·.found_violation) = true) :
    discrete_violation_index idx row < row.length := by
  have hne : row ≠ [] := by rintro rfl; simp at h
  rw [discrete_violation_index]
  by_cases hgt : 1 < (row.filter (·.found_violation)).length
  · rw [if_pos hgt]
    have := lexArgmax_lt_length
      (row.map (fun r => r.list_of_scaled_violations.getD idx 0))
      (by simpa using hne)
    simpa using this
  · rw [if_neg hgt]
    obtain ⟨r, hr, hfound⟩ := List.any_eq_true.mp h
    exact List.findIdx_lt_length.mpr ⟨r, hr, hfound⟩

/-- For singleton rows, counting over the flattened results equals
counting the rows containing a satisfying result. -/
theorem flatten_countP_singletons (sdl : List (List SeparationResult))
    (q : SeparationResult → Bool) (h : ∀ row ∈ sdl, row.length = 1) :
    sdl.flatten.countP q = sdl.countP (fun row => row.any q) := by
  induction sdl with
  | nil => rfl
  | cons row rest ih =>
    obtain ⟨r, rfl⟩ := List.length_eq_one.mp
      (h row (List.mem_cons_self row rest))
    have ih' := ih (fun row hr => h row (List.mem_cons_of_mem _ hr))
    cases hq : q r <;>
      simp [List.countP_cons, List.countP_append, ih', hq]

/-- For singleton rows, a row contains a violating result exactly when
its first result is violating. -/
theorem countP_any_eq_countP_head (sdl : List (List SeparationResult))
    (q : SeparationResult → Bool) (h : ∀ row ∈ sdl, row.length = 1) :
    sdl.countP (fun row => row.any q) =
      sdl.countP (fun row => q (row.getD 0 default)) := by
  apply List.countP_congr
  intro row hrow
  obtain ⟨r, rfl⟩ := List.length_eq_one.mp (h row hrow)
  simp

/-- The violations matrix has exactly one row per violating
realization. -/
theorem violation_matrix_length (is_discrete : Bool) (nCons : ℕ)
    (sdl : List (List SeparationResult))
    (hrows : is_discrete = false → ∀ row ∈ sdl, row.length = 1) :
    (violation_matrix is_discrete nCons sdl).length =
      sdl.countP (fun row => row.any (·.found_violation)) := by
  cases is_discrete
  · simp only [violation_matrix, Bool.false_eq_true, if_false,
      List.length_map, List.length_range, violation_matrix_dim]
    exact flatten_countP_singletons sdl _ (hrows rfl)
  · simp only [violation_matrix, if_true, List.length_map]
    exact violating_rows_length sdl

/-- Every row of the violations matrix is the column-indexed list of
nonnegative scaled violations of one result belonging to one violating
realization. -/
theorem violation_matrix_rows (is_discrete : Bool) (nCons : ℕ)
    (sdl : List (List SeparationResult))
    (hrows : is_discrete = false → ∀ row ∈ sdl, row.length = 1) :
    ∀ mrow ∈ violation_matrix is_discrete nCons sdl,
      ∃ row ∈ sdl, row.any (·.found_violation) = true ∧ ∃ r ∈ row,
        mrow = (List.range nCons).map
          (fun j => max (r.list_of_scaled_violations.getD j 0) 0) := by
  cases is_discrete
  · -- continuous geometry
    intro mrow hm
    simp only [violation_matrix, Bool.false_eq_true, if_false,
      List.mem_map, List.mem_range] at hm
    obtain ⟨i, hi, rfl⟩ := hm
    have hsingles := hrows rfl
    -- the matrix dimension equals the number of violating indices
    have hdim : violation_matrix_dim false sdl =
        (violating_indices_cont sdl).length := by
      rw [violating_indices_cont_length]
      simp only [violation_matrix_dim, Bool.false_eq_true, if_false]
      rw [flatten_countP_singletons sdl _ hsingles,
        countP_any_eq_countP_head sdl _ hsingles]
    rw [hdim] at hi
    -- identify the selected realization index
    have hgetvic : (violating_indices_cont sdl).getD i 0 =
        (violating_indices_cont sdl)[i] :=
      List.getD_eq_getElem _ _ hi
    have hfl : i < (sdl.enum.filter
        (fun p => (p.2.getD 0 default).found_violation)).length := by
      simpa [violating_indices_cont] using hi
    have hvic : (violating_indices_cont sdl)[i] =
        ((sdl.enum.filter
          (fun p => (p.2.getD 0 default).found_violation))[i]).1 := by
      simp [violating_indices_cont]
    set p := (sdl.enum.filter
      (fun p => (p.2.getD 0 default).found_violation))[i] with hpdef
    have hpmem : p ∈ sdl.enum.filter
        (fun p => (p.2.getD 0 default).found_violation) :=
      List.getElem_mem _
    have hpenum : p ∈ sdl.enum := List.mem_of_mem_filter hpmem
    have hphead : ((p.2.getD 0 default).found_violation) = true := by
      simpa using List.of_mem_filter hpmem
    have hprow : p.2 ∈ sdl := List.snd_mem_of_mem_enum hpenum
    have hpget : sdl[p.1]? = some p.2 :=
      List.mem_enum_iff_getElem?.mp hpenum
    have hsdlgetD : sdl.getD p.1 [] = p.2 := by
      rw [List.getD_eq_getElem?_getD, hpget]
      rfl
    obtain ⟨r, hreq⟩ := List.length_eq_one.mp (hsingles p.2 hprow)
    refine ⟨p.2, hprow, ?_, r, ?_, ?_⟩
    · rw [hreq]
      simp only [List.any_cons, List.any_nil, Bool.or_false]
      have : p.2.getD 0 default = r := by rw [hreq]; rfl
      rw [← this]
      exact hphead
    · rw [hreq]; exact List.mem_cons_self r []
    · rw [hgetvic, hvic, hsdlgetD, hreq]
      simp
  · -- discrete geometry
    intro mrow hm
    simp only [violation_matrix, if_true, List.mem_map] at hm
    obtain ⟨p, hpmem, rfl⟩ := hm
    simp only [violating_rows] at hpmem
    have hpenum : p ∈ sdl.enum := List.mem_of_mem_filter hpmem
    have hpany : p.2.any (·.found_violation) = true := by
      simpa using List.of_mem_filter hpmem
    have hprow : p.2 ∈ sdl := List.snd_mem_of_mem_enum hpenum
    have hlt := discrete_violation_index_lt p.1 p.2 hpany
    have hget : p.2.getD (discrete_violation_index p.1 p.2) default =
        p.2[discrete_violation_index p.1 p.2] :=
      List.getD_eq_getElem _ _ hlt
    refine ⟨p.2, hprow, hpany,
      p.2.getD (discrete_violation_index p.1 p.2) default, ?_, rfl⟩
    rw [hget]
    exact List.getElem_mem _

/-- The aggregator returns the sentinel pair exactly when the matrix
dimension is zero. -/
theorem get_index_ok_none_iff (is_discrete : Bool) (nCons : ℕ)
    (sdl : List (List SeparationResult)) :
    get_index_of_max_violation is_discrete nCons sdl = .ok none ↔
      violation_matrix_dim is_discrete sdl = 0 := by
  constructor
  · intro h
    by_contra hne
    simp only [get_index_of_max_violation, if_neg hne] at h
    rcases hmax : (column_sums nCons
        (violation_matrix is_discrete nCons sdl)).max? with _ | mv <;>
      simp only [hmax] at h
    · exact Except.noConfusion h
    · cases is_discrete
      · simp at h
      · rcases hlook : ((violating_rows sdl).map
            (fun p => (p.1, discrete_violation_index p.1 p.2))).lookup
            ((column_sums nCons
              (violation_matrix true nCons sdl)).findIdx
                (· = mv)) with _ | j <;>
          simp only [if_true, hlook] at h
        · exact Except.noConfusion h
        · simp at h
  · intro h
    simp [get_index_of_max_violation, h]

/-- Whenever the aggregator returns a (constraint, realization) pair,
the constraint index is a valid column index attaining the maximal
column sum of the violations matrix. -/
theorem get_index_some_argmax (is_discrete : Bool) (nCons : ℕ)
    (sdl : List (List SeparationResult)) (i j : ℕ)
    (h : get_index_of_max_violation is_discrete nCons sdl =
      .ok (some (i, j))) :
    i < (column_sums nCons (violation_matrix is_discrete nCons sdl)).length ∧
    ∀ s ∈ column_sums nCons (violation_matrix is_discrete nCons sdl),
      s ≤ (column_sums nCons
        (violation_matrix is_discrete nCons sdl)).getD i 0 := by
  by_cases hdim : violation_matrix_dim is_discrete sdl = 0
  · simp [get_index_of_max_violation, hdim] at h
  · simp only [get_index_of_max_violation, if_neg hdim] at h
    rcases hmax : (column_sums nCons
        (violation_matrix is_discrete nCons sdl)).max? with _ | mv <;>
      simp only [hmax] at h
    · exact Except.noConfusion h
    · have hmem : mv ∈ column_sums nCons
          (violation_matrix is_discrete nCons sdl) :=
        List.max?_mem (fun a b => max_choice a b) hmax
      have hle : ∀ s ∈ column_sums nCons
          (violation_matrix is_discrete nCons sdl), s ≤ mv :=
        (List.max?_le_iff (fun _ _ _ => max_le_iff) hmax).mp (le_refl mv)
      have hfindsome : ((column_sums nCons
          (violation_matrix is_discrete nCons sdl)).find?
            (fun x => x = mv)).isSome := by
        rw [List.find?_isSome]
        exact ⟨mv, hmem, by simp⟩
      obtain ⟨y, hy⟩ := Option.isSome_iff_exists.mp hfindsome
      have hymv : y = mv := by simpa using List.find?_some hy
      have hidx_lt : (column_sums nCons
          (violation_matrix is_discrete nCons sdl)).findIdx
            (fun x => x = mv) <
          (column_sums nCons
            (violation_matrix is_discrete nCons sdl)).length :=
        List.findIdx_lt_length.mpr ⟨mv, hmem, by simp⟩
      have hgetD : (column_sums nCons
          (violation_matrix is_discrete nCons sdl)).getD
            ((column_sums nCons
              (violation_matrix is_discrete nCons sdl)).findIdx
                (fun x => x = mv)) 0 = mv := by
        rw [getD_findIdx_of_find?_eq _ _ _ _ hy]
        exact hymv
      have hieq : i = (column_sums nCons
          (violation_matrix is_discrete nCons sdl)).findIdx
            (fun x => x = mv) := by
        cases is_discrete
        · simp only [Bool.false_eq_true, if_false] at h
          have := (Except.ok.inj h)
          exact (Prod.mk.injEq _ _ _ _ ▸ (Option.some.inj this)).1.symm
        · simp only [if_true] at h
          rcases hlook : ((violating_rows sdl).map
              (fun p => (p.1, discrete_violation_index p.1 p.2))).lookup
              ((column_sums nCons
                (violation_matrix true nCons sdl)).findIdx
                  (· = mv)) with _ | j0 <;>
            simp only [hlook] at h
          · exact Except.noConfusion h
          · have := (Except.ok.inj h)
            exact (Prod.mk.injEq _ _ _ _ ▸ (Option.some.inj this)).1.symm
      rw [hieq, hgetD]
      exact ⟨hidx_lt, hle⟩

/-- C3. The aggregator builds a violations matrix with one row per
violating realization and one column per performance constraint, each
entry the nonnegative part of a recorded scaled violation; it returns
the sentinel pair exactly when no recorded result found a violation,
and whenever it returns a (constraint, realization) pair the constraint
index is a column of the matrix whose column sum is maximal. -/
theorem get_index_of_max_violation_spec (is_discrete : Bool) (nCons : ℕ)
    (sdl : List (List SeparationResult))
    (hrows : is_discrete = false → ∀ row ∈ sdl, row.length = 1) :
    ((get_index_of_max_violation is_discrete nCons sdl = .ok none) ↔
      ∀ row ∈ sdl, ∀ r ∈ row, r.found_violation = false) ∧
    (violation_matrix is_discrete nCons sdl).length =
      sdl.countP (fun row => row.any (·.found_violation)) ∧
    (∀ mrow ∈ violation_matrix is_discrete nCons sdl,
      ∃ row ∈ sdl, row.any (·.found_violation) = true ∧ ∃ r ∈ row,
        mrow = (List.range nCons).map
          (fun j => max (r.list_of_scaled_violations.getD j 0) 0)) ∧
    (∀ i j, get_index_of_max_violation is_discrete nCons sdl =
        .ok (some (i, j)) →
      i < (column_sums nCons
        (violation_matrix is_discrete nCons sdl)).length ∧
      ∀ s ∈ column_sums nCons (violation_matrix is_discrete nCons sdl),
        s ≤ (column_sums nCons
          (violation_matrix is_discrete nCons sdl)).getD i 0) :=
  ⟨(get_index_ok_none_iff is_discrete nCons sdl).trans
      (violation_matrix_dim_eq_zero_iff is_discrete sdl),
    violation_matrix_length is_discrete nCons sdl hrows,
    violation_matrix_rows is_discrete nCons sdl hrows,
    fun i j h => get_index_some_argmax is_discrete nCons sdl i j h⟩

/-- C3 witness. Two continuous (singleton-row) results, the first
violating: the violations matrix has exactly one row. -/
theorem get_index_of_max_violation_spec_witness :
    (violation_matrix false 2
        [[⟨.optimal, true, [2, 1]⟩], [⟨.optimal, false, [0, 0]⟩]]).length =
      [[(⟨.optimal, true, [2, 1]⟩ : SeparationResult)],
        [⟨.optimal, false, [0, 0]⟩]].countP
        (fun row => row.any (·.found_violation)) :=
  (get_index_of_max_violation_spec false 2
    [[⟨.optimal, true, [2, 1]⟩], [⟨.optimal, false, [0, 0]⟩]]
    (by intro _ row hrow
        rcases hrow with _ | ⟨_, _ | ⟨_, ⟨⟩⟩⟩ <;> rfl)).2.1

end PyrosSep
